import Mathlib

set_option maxHeartbeats 1000000
set_option maxRecDepth 4096

/-!
Shallow embedding of the Vigenère cipher / Kasiski examination library
(src/vigenere.js, src/kasiski.js and the combined variant src/unnamed/part_000).
Strings are modelled as `List Char`, JS numbers appearing in the chi-squared
pipeline as `ℚ` extended with a NaN element (`JsNum`), and JS exceptions
(out-of-bounds property access on `undefined`) as `Option.none`.
-/

/-- Single-character test for the regex `^[A-Z]$` used throughout vigenere.js:
true exactly for the 26 uppercase ASCII letters. -/
def isUpperLetter (c : Char) : Bool :=
  65 ≤ c.toNat && c.toNat ≤ 90

/-- The process-wide `letterFrequencies` constant of vigenere.js / part_000:
expected relative frequency of each English letter, the decimal literals of the
source rendered as exact rationals. -/
def letterFrequencies : List (Char × ℚ) :=
  [ ('A', 8000395/100000000),
    ('B', 1535701/100000000),
    ('C', 2575785/100000000),
    ('D', 4317924/100000000),
    ('E', 12575645/100000000),
    ('F', 2350463/100000000),
    ('G', 1982677/100000000),
    ('H', 6236609/100000000),
    ('I', 6920007/100000000),
    ('J', 145188/100000000),
    ('K', 739906/100000000),
    ('L', 4057231/100000000),
    ('M', 2560994/100000000),
    ('N', 6903785/100000000),
    ('O', 7591270/100000000),
    ('P', 1795742/100000000),
    ('Q', 117571/100000000),
    ('R', 5959034/100000000),
    ('S', 6340880/100000000),
    ('T', 9085226/100000000),
    ('U', 2841783/100000000),
    ('V', 981717/100000000),
    ('W', 2224893/100000000),
    ('X', 179556/100000000),
    ('Y', 1900888/100000000),
    ('Z', 79130/100000000) ]

/-- The key order of `letterFrequencies`: `for (var letter in this.letterFrequencies)`
iterates the 26 letter keys in insertion order A..Z. -/
def lettersAZ : List Char :=
  letterFrequencies.map Prod.fst

/-- `Vigenere.prototype.cyclicPlus` (vigenere.js lines 87-96): addition modulo 26 on
uppercase letters via char codes, identity on any other input. -/
def cyclicPlus (x c : Char) : Char :=
  if isUpperLetter x && isUpperLetter c then
    Char.ofNat ((x.toNat + c.toNat - 130) % 26 + 65)
  else x

/-- `Vigenere.prototype.cyclicMinus` (vigenere.js lines 102-112): subtraction modulo 26
on uppercase letters (the `+ 26` guards the negative wraparound, computed here in `Int`
exactly as JS computes in signed arithmetic), identity on any other input. -/
def cyclicMinus (x c : Char) : Char :=
  if isUpperLetter x && isUpperLetter c then
    Char.ofNat ((((x.toNat : Int) - c.toNat + 26) % 26 + 65)).toNat
  else x

/-- Zero-based alphabet index of an uppercase letter (A = 0), the spec's `index(x)`. -/
def charIdx (c : Char) : Nat :=
  c.toNat - 65

/-- The letter at a given zero-based alphabet index, the spec's inverse of `index`. -/
def idxLetter (n : Nat) : Char :=
  Char.ofNat (n + 65)

/-- `String.prototype.toUpperCase` restricted to ASCII (the only case mapping this
library's data ever exercises): uppercase every lowercase ASCII letter. -/
def upperStr (text : List Char) : List Char :=
  text.map Char.toUpper

/-- The Cipher Engine state: the four string-valued fields of a `Vigenere` instance
(vigenere.js constructor, lines 43-56).  The `letterFrequencies` pointer is the
process-wide constant above and is not duplicated per instance. -/
structure Vigenere where
  key : List Char
  cryptotext : List Char
  plaintext : List Char
  ciphertext : List Char
deriving DecidableEq

/-- The `Vigenere(cryptotext, key)` constructor: key and working text default to a
single space when empty and are uppercased; the output fields `plaintext` and
`ciphertext` are initialised to the raw (non-uppercased) `cryptotext` argument. -/
def mkVigenere (cryptotext key : List Char) : Vigenere :=
  { key := upperStr (if key = [] then [' '] else key)
    cryptotext := upperStr (if cryptotext = [] then [' '] else cryptotext)
    plaintext := cryptotext
    ciphertext := cryptotext }

/-- `Vigenere.prototype.setText`: replaces the working text verbatim. -/
def Vigenere.setText (v : Vigenere) (text : List Char) : Vigenere :=
  { v with cryptotext := text }

/-- `Vigenere.prototype.reset`: restores both output texts to the working text. -/
def Vigenere.reset (v : Vigenere) : Vigenere :=
  { v with plaintext := v.cryptotext, ciphertext := v.cryptotext }

/-- `key.charAt(i % key.length)`: the cyclically indexed key character.  For an empty
key, JS `charAt` yields the empty string, which fails the `^[A-Z]$` match exactly as
the non-letter default character does here. -/
def keyAt (key : List Char) (i : Nat) : Char :=
  key.getD (i % key.length) (Char.ofNat 0)

/-- The encryption loop of `Vigenere.prototype.encrypt` (vigenere.js lines 121-123),
accumulating from character position `i`. -/
def encryptFrom (key : List Char) : Nat → List Char → List Char
  | _, [] => []
  | i, ch :: rest => cyclicPlus ch (keyAt key i) :: encryptFrom key (i + 1) rest

/-- The decryption loop of `Vigenere.prototype.decrypt` (vigenere.js lines 134-136),
accumulating from character position `i`. -/
def decryptFrom (key : List Char) : Nat → List Char → List Char
  | _, [] => []
  | i, ch :: rest => cyclicMinus ch (keyAt key i) :: decryptFrom key (i + 1) rest

/-- Pure encryption of a text under a key: the body of `encrypt` as a function of its
inputs. -/
def encryptStr (text key : List Char) : List Char :=
  encryptFrom key 0 text

/-- Pure decryption of a text under a key: the body of `decrypt` as a function of its
inputs. -/
def decryptStr (text key : List Char) : List Char :=
  decryptFrom key 0 text

/-- `Vigenere.prototype.encrypt(newKey)`: uses `newKey` when non-empty (JS `||` on the
falsy empty string), otherwise the stored key; returns the ciphertext and stores it. -/
def Vigenere.encrypt (v : Vigenere) (newKey : List Char) : List Char × Vigenere :=
  let key := if newKey = [] then v.key else newKey
  let ct := encryptStr v.cryptotext key
  (ct, { v with ciphertext := ct })

/-- `Vigenere.prototype.decrypt(newKey)`: uses `newKey` when non-empty, otherwise the
stored key; returns the plaintext and stores it. -/
def Vigenere.decrypt (v : Vigenere) (newKey : List Char) : List Char × Vigenere :=
  let key := if newKey = [] then v.key else newKey
  let pt := decryptStr v.cryptotext key
  (pt, { v with plaintext := pt })

/-- A JS number as it appears in the chi-squared pipeline: an exact rational, or NaN.
The only division by zero the source can perform is a zero letter count divided by a
zero column total, which is NaN in JS; NaN then propagates through every further
arithmetic operation. -/
inductive JsNum where
  | nan : JsNum
  | num (q : ℚ) : JsNum
deriving DecidableEq

/-- JS addition on the numbers of the chi-squared pipeline (NaN-propagating). -/
def jsAdd : JsNum → JsNum → JsNum
  | JsNum.num a, JsNum.num b => JsNum.num (a + b)
  | _, _ => JsNum.nan

/-- JS subtraction on the numbers of the chi-squared pipeline (NaN-propagating). -/
def jsSub : JsNum → JsNum → JsNum
  | JsNum.num a, JsNum.num b => JsNum.num (a - b)
  | _, _ => JsNum.nan

/-- JS multiplication on the numbers of the chi-squared pipeline (NaN-propagating). -/
def jsMul : JsNum → JsNum → JsNum
  | JsNum.num a, JsNum.num b => JsNum.num (a * b)
  | _, _ => JsNum.nan

/-- JS division of a letter count by a column total: division by a zero total gives
NaN (the numerator is then also zero, so the infinite `x/0` cases cannot arise). -/
def jsDivNat (a b : Nat) : JsNum :=
  if b = 0 then JsNum.nan else JsNum.num ((a : ℚ) / b)

/-- JS division of a pipeline number by an expected-frequency constant
(NaN-propagating; the constants are all nonzero). -/
def jsDivQ : JsNum → ℚ → JsNum
  | JsNum.nan, _ => JsNum.nan
  | JsNum.num a, e => if e = 0 then JsNum.nan else JsNum.num (a / e)

/-- One element of the array returned by `Vigenere.prototype.frequencies`: the
column's letter total, its per-letter proportions, and its chi-squared score. -/
structure ColumnFrequency where
  total : Nat
  props : List (Char × JsNum)
  score : JsNum
deriving DecidableEq

/-- The characters of `text` at the positions congruent to `c` modulo `columns` —
the position-wise coset that the counting loop (`var column = i % columns`) assigns
to column `c`. -/
def colChars (text : List Char) (columns c : Nat) : List Char :=
  (text.enum.filter (fun p => p.1 % columns = c)).map Prod.snd

/-- `columnFrequencies[column][letter]` after the counting loop: occurrences of the
given uppercase letter among the column's characters. -/
def colCount (text : List Char) (columns c : Nat) (letter : Char) : Nat :=
  (colChars text columns c).count letter

/-- `columnFrequencies[column].total`: the number of uppercase letters in the column
(non-letters are skipped and do not advance the denominator). -/
def colTotal (text : List Char) (columns c : Nat) : Nat :=
  ((colChars text columns c).filter isUpperLetter).length

/-- One column record of `Vigenere.prototype.frequencies` (vigenere.js lines
146-187): each letter count is divided by the column total, and the score
`Σ (f_i − F_i)² / F_i` is accumulated over the 26 letters in A..Z order. -/
def mkColumnFrequency (text : List Char) (columns c : Nat) : ColumnFrequency :=
  let total := colTotal text columns c
  { total := total
    props := letterFrequencies.map
      (fun p => (p.1, jsDivNat (colCount text columns c p.1) total))
    score := letterFrequencies.foldl
      (fun acc p =>
        let f := jsDivNat (colCount text columns c p.1) total
        let d := jsSub f (JsNum.num p.2)
        jsAdd acc (jsDivQ (jsMul d d) p.2))
      (JsNum.num 0) }

/-- The column table of `frequencies(columns, text)` on an explicit text: one
`ColumnFrequency` per column, a zero column count defaulting to 1 (JS `columns || 1`). -/
def freqsOn (columns : Nat) (text : List Char) : List ColumnFrequency :=
  let cols := if columns = 0 then 1 else columns
  (List.range cols).map (fun c => mkColumnFrequency text cols c)

/-- `Vigenere.prototype.frequencies(columns, cryptotext)`: an empty text argument
falls back to the stored working text (JS `cryptotext || this.cryptotext`). -/
def Vigenere.frequencies (v : Vigenere) (columns : Nat) (text : List Char) :
    List ColumnFrequency :=
  freqsOn columns (if text = [] then v.cryptotext else text)

/-- Placeholder column record used only for in-range `getD` lookups. -/
def defaultColumn : ColumnFrequency :=
  { total := 0, props := [], score := JsNum.nan }

/-- One candidate entry pushed into a column of `smashKey`'s candidate table. -/
structure CandEntry where
  letter : Char
  score : JsNum
deriving DecidableEq

/-- The comparator `compare(x, y) = x.score - y.score` of `smashKey` under JS
`SortCompare` semantics (a NaN comparator value is treated as +0): true when the
comparator is ≤ 0 or NaN, i.e. when `x` may stay in front of `y`. -/
def candLe (x y : CandEntry) : Bool :=
  match x.score, y.score with
  | JsNum.num a, JsNum.num b => a ≤ b
  | _, _ => true

/-- Stable insertion of an element into a list sorted by `r`: on ties the inserted
(originally earlier) element stays first, modelling stable `Array.prototype.sort`. -/
def insertSortedBy {α : Type} (r : α → α → Bool) (a : α) : List α → List α
  | [] => [a]
  | b :: l => if r a b then a :: b :: l else b :: insertSortedBy r a l

/-- Stable sort by the comparator relation `r`, modelling `Array.prototype.sort`
(required stable since ES2019). -/
def sortBy {α : Type} (r : α → α → Bool) : List α → List α
  | [] => []
  | a :: l => insertSortedBy r a (sortBy r l)

/-- Placeholder candidate entry used only for in-range `getD` lookups. -/
def defaultCand : CandEntry :=
  { letter := Char.ofNat 0, score := JsNum.nan }

/-- The result record of `Vigenere.prototype.smashKey` (the `assemble` closure is
`assembleKey` below, taking this record as its explicit `this`). -/
structure SmashResult where
  candidateTable : List (List CandEntry)
  firstKey : List Char
deriving DecidableEq

/-- The engine-state effect of one iteration of `smashKey`'s letter loop: each of the
26 calls `this.decrypt(letter)` overwrites the stored plaintext. -/
def smashStep (st : Vigenere) (l : Char) : Vigenere :=
  (Vigenere.decrypt st [l]).2

/-- The entries pushed into column `c` of the candidate table before sorting: the
letter loop decrypts the (never-changing) working text under each single-letter key
and pushes one (letter, score) pair into every column, so each column receives the 26
letters in A..Z order with the column's chi-squared score for that shift. -/
def rawColumn (v : Vigenere) (len c : Nat) : List CandEntry :=
  lettersAZ.map (fun l =>
    { letter := l
      score := ((Vigenere.frequencies v len (decryptStr v.cryptotext [l])).getD c
          defaultColumn).score })

/-- `Vigenere.prototype.smashKey(length, options)` (vigenere.js lines 208-257) with
an explicit length argument — the length-omitted path delegates to
`kasiskiExamination`; a zero length falls back to 1 exactly as JS `length || 1`.
`options` is clamped (`Math.min(options || 3, 26)`) but, faithfully to the source,
never used afterwards.  Each column is sorted ascending by score and the first key is
the concatenation of the column heads.  Returns the result record together with the
engine state after the 26 mutating `decrypt` calls. -/
def Vigenere.smashKey (v : Vigenere) (length options : Nat) : SmashResult × Vigenere :=
  let len := if length = 0 then 1 else length
  let _options := min (if options = 0 then 3 else options) 26
  let vFinal := lettersAZ.foldl smashStep v
  let table := (List.range len).map (fun c => sortBy candLe (rawColumn v len c))
  let firstKey := table.map (fun col => (col.headD defaultCand).letter)
  ({ candidateTable := table, firstKey := firstKey }, vFinal)

/-- The `assemble(combination)` closure returned by `smashKey`: per column, the
letter of the candidate at the given rank index.  Out-of-range rank lookups are
modelled with rank 0 (the source faults on them; no claim exercises that case). -/
def assembleKey (res : SmashResult) (combination : List Nat) : List Char :=
  (List.range res.candidateTable.length).map (fun c =>
    ((res.candidateTable.getD c []).getD (combination.getD c 0) defaultCand).letter)

/-- One entry of `recurrenceSearch`'s `factorTable`: a recorded gap value with its
occurrence frequency and its recorded factor list (kasiski.js lines 38-40). -/
structure FactorRec where
  gap : Nat
  frequency : Nat
  factorList : List Nat
deriving DecidableEq

/-- The divisor scan of `factorGap` (kasiski.js lines 23-27): `factorList[i] = true`
for every `i` with `2 ≤ i ≤ Math.sqrt(n)` dividing `n`.  For every gap size reachable
here (far below 2^51) the float comparison `i <= Math.sqrt(n)` agrees exactly with
`i * i ≤ n`.  The sparse boolean array is modelled by the ascending list of its set
indices, which is also its `for...in` enumeration order. -/
def factorListOf (n : Nat) : List Nat :=
  (List.range (n + 1)).filter (fun i => 2 ≤ i && i * i ≤ n && n % i = 0)

/-- `factorGap(n, factorTable)` (kasiski.js lines 14-28): bump the frequency of an
existing entry for gap `n`, otherwise create a fresh entry with frequency 1 and the
divisor list of `n`. -/
def factorGap (n : Nat) (ft : List FactorRec) : List FactorRec :=
  if ft.any (fun r => r.gap = n) then
    ft.map (fun r => if r.gap = n then { r with frequency := r.frequency + 1 } else r)
  else
    ft ++ [{ gap := n, frequency := 1, factorList := factorListOf n }]

/-- `substringTable[candidate].push({indexOfAppearance, gapToNextAppearance})`
(kasiski.js lines 66-70): append an occurrence pair under the substring key,
creating the key on first sight. -/
def pushOccurrence (st : List (List Char × List (Nat × Nat))) (cand : List Char)
    (occ : Nat × Nat) : List (List Char × List (Nat × Nat)) :=
  if st.any (fun p => p.1 = cand) then
    st.map (fun p => if p.1 = cand then (p.1, p.2 ++ [occ]) else p)
  else
    st ++ [(cand, [occ])]

/-- `ciphertext.indexOf(candidate, searchIndex)`: the least index `j ≥ searchIndex`
at which `candidate` occurs in full, `none` standing for JS's -1. -/
def indexOfFrom (ct cand : List Char) (searchIndex : Nat) : Option Nat :=
  (List.range (ct.length + 1)).find? (fun j =>
    searchIndex ≤ j && j + cand.length ≤ ct.length
      && (ct.drop j).take cand.length = cand)

/-- The do-while chain of `recurrenceSearch` (kasiski.js lines 61-78): record each
further occurrence of `candidate` (gap measured from `startIndex`) and continue
searching at `nextIndex + k`.  The search index grows by at least `k ≥ 2` per
iteration, so `ct.length + 1` rounds of fuel always suffice; the fuel argument only
serves Lean's termination checking and is never exhausted at the call site. -/
def chainLoop (ct cand : List Char) (k startIndex : Nat) :
    Nat → Nat → List (List Char × List (Nat × Nat)) × List FactorRec →
    List (List Char × List (Nat × Nat)) × List FactorRec
  | 0, _, tables => tables
  | fuel + 1, searchIndex, (st, ft) =>
    match indexOfFrom ct cand searchIndex with
    | none => (st, ft)
    | some nextIndex =>
      let gap := nextIndex - startIndex
      let st' := pushOccurrence st cand (startIndex, gap)
      let ft' := factorGap gap ft
      chainLoop ct cand k startIndex fuel (nextIndex + k) (st', ft')

/-- `recurrenceSearch(ciphertext)` (kasiski.js lines 42-83): for every substring
length `k` with `2 ≤ k < floor(n/2)` and every start index below `n − 2k` (the JS
bound is computed in signed arithmetic, so a negative bound runs no iterations, like
the truncated subtraction here), chain forward through all repeats of the k-length
candidate starting there.  Returns (substringTable, factorTable). -/
def recurrenceSearch (ct : List Char) :
    List (List Char × List (Nat × Nat)) × List FactorRec :=
  let n := ct.length
  ((List.range (n / 2)).drop 2).foldl (fun tables k =>
    (List.range (n - 2 * k)).foldl (fun tables2 startIndex =>
      chainLoop ct ((ct.drop startIndex).take k) k startIndex (n + 1)
        (startIndex + k) tables2)
      tables)
    ([], [])

/-- One entry of `candidateFreqs` / `frequencyRanks`: a factor (candidate key
length) with its aggregate frequency.  JS stores the factor as a numeric string key;
the comparison `factor < 4` coerces it back to a number, so a `Nat` is faithful. -/
structure RankEntry where
  factor : Nat
  frequency : Nat
deriving DecidableEq

/-- The aggregation loop of `kasiskiExamination` (kasiski.js lines 108-122): each
factor recorded under any gap gets the summed frequency of all gap entries whose
factor list contains it.  `candidateFreqs` is a JS sparse array indexed by factor
value, so its enumeration order is ascending factor value; `1 + the largest gap`
bounds every recorded factor. -/
def candidateFreqsOf (ft : List FactorRec) : List RankEntry :=
  let bnd := (ft.foldl (fun m r => max m r.gap) 0) + 1
  ((List.range bnd).filter (fun f => ft.any (fun r => f ∈ r.factorList))).map
    (fun f =>
      { factor := f
        frequency := ft.foldl
          (fun s r => if f ∈ r.factorList then s + r.frequency else s) 0 })

/-- The comparator `compare(x, y){ return y.frequency - x.frequency; }` of
`kasiskiExamination` under JS `SortCompare` semantics: true when `x` may stay in
front of `y` — descending by frequency, ties keeping the original (ascending-factor)
order under the stable sort. -/
def rankLe (x y : RankEntry) : Bool :=
  y.frequency ≤ x.frequency

/-- The `candidateFreqs` array computed by `kasiskiExamination` on a ciphertext. -/
def kasiskiCandidateFreqs (ct : List Char) : List RankEntry :=
  candidateFreqsOf (recurrenceSearch ct).2

/-- The `frequencyRanks` array of `kasiskiExamination` after its stable sort. -/
def kasiskiRanks (ct : List Char) : List RankEntry :=
  sortBy rankLe (kasiskiCandidateFreqs ct)

/-- The result record of `kasiskiExamination` (kasiski.js lines 135-142). -/
structure KasiskiResult where
  substringTable : List (List Char × List (Nat × Nat))
  factorTable : List FactorRec
  candidateFreqs : List RankEntry
  frequencyRanks : List RankEntry
  firstKeyLength : Nat
deriving DecidableEq

/-- `kasiskiExamination(ciphertext)` of src/kasiski.js: runs the search, aggregates
and rank-sorts the factors, then suggests the first ranked factor ≥ 4 — the
`while (frequencyRanks[firstKeyLengthIndex].factor < 4)` skip loop.  When that loop
walks past the last entry — in particular whenever no factor at all was recorded —
the source reads `.factor` of `undefined` and throws a TypeError; the thrown call is
modelled as `none`. -/
def kasiskiExamination (ct : List Char) : Option KasiskiResult :=
  match (kasiskiRanks ct).find? (fun e => 4 ≤ e.factor) with
  | some e => some
      { substringTable := (recurrenceSearch ct).1
        factorTable := (recurrenceSearch ct).2
        candidateFreqs := kasiskiCandidateFreqs ct
        frequencyRanks := kasiskiRanks ct
        firstKeyLength := e.factor }
  | none => none

/-- The `kasiskiExamination` variant of src/unnamed/part_000 (lines 125-167): no
skip loop, the suggestion is `frequencyRanks[0].factor`, which reads `.factor` of
`undefined` (modelled `none`) exactly when no factor was recorded. -/
def kasiskiExaminationNoSkip (ct : List Char) : Option KasiskiResult :=
  match kasiskiRanks ct with
  | e :: _ => some
      { substringTable := (recurrenceSearch ct).1
        factorTable := (recurrenceSearch ct).2
        candidateFreqs := kasiskiCandidateFreqs ct
        frequencyRanks := kasiskiRanks ct
        firstKeyLength := e.factor }
  | [] => none

/-- The factor-table invariant claimed by the spec: a record's factor list holds
exactly the divisors of its gap lying in `[2, sqrt gap]`. -/
def FactorInv (r : FactorRec) : Prop :=
  ∀ i : Nat, i ∈ r.factorList ↔ 2 ≤ i ∧ i ≤ Nat.sqrt r.gap ∧ r.gap % i = 0

/-- The invariant lifted to the (substringTable, factorTable) pair threaded through
the search loops. -/
def TableInv (tables : List (List Char × List (Nat × Nat)) × List FactorRec) : Prop :=
  ∀ r ∈ tables.2, FactorInv r

-- ------------------------------------------------------------------
-- Theorems
-- ------------------------------------------------------------------

theorem isUpperLetter_iff (c : Char) :
    isUpperLetter c = true ↔ 65 ≤ c.toNat ∧ c.toNat ≤ 90 := by
  simp [isUpperLetter]

theorem toNat_ofNat_lt (n : Nat) (h : n < 55296) : (Char.ofNat n).toNat = n := by
  unfold Char.ofNat
  split
  · rfl
  · rename_i hv
    exact absurd (Or.inl h) hv

theorem keyAt_mem (key : List Char) (hK : key ≠ []) (i : Nat) : keyAt key i ∈ key := by
  have hlen : 0 < key.length := List.length_pos.mpr hK
  have hlt : i % key.length < key.length := Nat.mod_lt _ hlen
  unfold keyAt
  rw [List.getD_eq_getElem?_getD, List.getElem?_eq_getElem hlt]
  simp only [Option.getD_some]
  exact List.getElem_mem hlt

theorem cyclic_minus_plus (x k : Char) (hk : isUpperLetter k = true) :
    cyclicMinus (cyclicPlus x k) k = x := by
  obtain ⟨hk1, hk2⟩ := (isUpperLetter_iff k).mp hk
  by_cases hx : isUpperLetter x = true
  · obtain ⟨hx1, hx2⟩ := (isUpperLetter_iff x).mp hx
    have hcond : (isUpperLetter x && isUpperLetter k) = true := by
      rw [hx, hk]; rfl
    rw [cyclicPlus, if_pos hcond]
    set m : Nat := (x.toNat + k.toNat - 130) % 26 + 65 with hm
    have hmlt : m < 55296 := by omega
    have hmto : (Char.ofNat m).toNat = m := toNat_ofNat_lt m hmlt
    have hmup : isUpperLetter (Char.ofNat m) = true := by
      rw [isUpperLetter_iff, hmto]
      omega
    have hcond2 : (isUpperLetter (Char.ofNat m) && isUpperLetter k) = true := by
      rw [hmup, hk]; rfl
    rw [cyclicMinus, if_pos hcond2, hmto]
    have harg : ((((m : Int) - k.toNat + 26) % 26 + 65)).toNat = x.toNat := by omega
    rw [harg, Char.ofNat_toNat]
  · have hxf : isUpperLetter x = false := Bool.eq_false_iff.mpr hx
    have hcond : (isUpperLetter x && isUpperLetter k) = false := by
      rw [hxf]; rfl
    rw [cyclicPlus, if_neg (by rw [hcond]; exact Bool.false_ne_true),
        cyclicMinus, if_neg (by rw [hcond]; exact Bool.false_ne_true)]

theorem decryptFrom_encryptFrom (K : List Char) (hK : K ≠ [])
    (hup : ∀ c ∈ K, isUpperLetter c = true) :
    ∀ (S : List Char) (i : Nat), decryptFrom K i (encryptFrom K i S) = S := by
  intro S
  induction S with
  | nil => intro i; rfl
  | cons ch rest ih =>
    intro i
    have hkmem : keyAt K i ∈ K := keyAt_mem K hK i
    have hkup : isUpperLetter (keyAt K i) = true := hup _ hkmem
    simp only [encryptFrom, decryptFrom]
    rw [cyclic_minus_plus ch (keyAt K i) hkup, ih (i + 1)]

/-- Claim C1: for every text `T` and every non-empty key `K` of uppercase letters,
decrypting the encryption of `T` under `K` with the same key `K` yields the uppercased
form of `T`, with non-letter characters passed through unchanged in place. -/
theorem c1_round_trip (T K : List Char) (hK : K ≠ [])
    (hup : ∀ c ∈ K, isUpperLetter c = true) :
    decryptStr (encryptStr (upperStr T) K) K = upperStr T :=
  decryptFrom_encryptFrom K hK hup (upperStr T) 0

/-- Witness for C1 at the concrete text `"Attack at Dawn!"` and key `"LEMON"`. -/
theorem c1_round_trip_witness :
    decryptStr (encryptStr (upperStr ("Attack at Dawn!".toList)) ("LEMON".toList))
      ("LEMON".toList) = upperStr ("Attack at Dawn!".toList) :=
  c1_round_trip ("Attack at Dawn!".toList) ("LEMON".toList) (by decide) (by decide)

/-- Claim C6: on two uppercase letters, `cyclicPlus` yields the letter at index
`(index x + index c) mod 26` and `cyclicMinus` the letter at index
`(index x - index c) mod 26` (zero-based, A = 0); if either character is not an
uppercase letter, both return `x` unchanged (total functions, no error path). -/
theorem c6_cyclic_ops (x c : Char) :
    cyclicPlus x c =
      (if isUpperLetter x && isUpperLetter c then
        idxLetter ((charIdx x + charIdx c) % 26) else x)
  ∧ cyclicMinus x c =
      (if isUpperLetter x && isUpperLetter c then
        idxLetter ((((charIdx x : Int) - charIdx c) % 26).toNat) else x) := by
  constructor
  · by_cases h : (isUpperLetter x && isUpperLetter c) = true
    · obtain ⟨hx1, hx2⟩ := (isUpperLetter_iff x).mp (Bool.and_elim_left h)
      obtain ⟨hc1, hc2⟩ := (isUpperLetter_iff c).mp (Bool.and_elim_right h)
      rw [cyclicPlus, if_pos h, if_pos h, idxLetter]
      congr 1
      unfold charIdx
      omega
    · rw [cyclicPlus, if_neg h, if_neg h]
  · by_cases h : (isUpperLetter x && isUpperLetter c) = true
    · obtain ⟨hx1, hx2⟩ := (isUpperLetter_iff x).mp (Bool.and_elim_left h)
      obtain ⟨hc1, hc2⟩ := (isUpperLetter_iff c).mp (Bool.and_elim_right h)
      rw [cyclicMinus, if_pos h, if_pos h, idxLetter]
      congr 1
      unfold charIdx
      omega
    · rw [cyclicMinus, if_neg h, if_neg h]

theorem insertSortedBy_length {α : Type} (r : α → α → Bool) (a : α) (l : List α) :
    (insertSortedBy r a l).length = l.length + 1 := by
  induction l with
  | nil => rfl
  | cons b t ih =>
    unfold insertSortedBy
    by_cases h : r a b = true
    · rw [if_pos h]; rfl
    · rw [if_neg h]
      simp only [List.length_cons, ih]

theorem sortBy_length {α : Type} (r : α → α → Bool) (l : List α) :
    (sortBy r l).length = l.length := by
  induction l with
  | nil => rfl
  | cons a t ih =>
    unfold sortBy
    rw [insertSortedBy_length, ih]
    rfl

theorem chain'_insertSortedBy {α : Type} (r : α → α → Bool)
    (htot : ∀ x y, r x y = true ∨ r y x = true) (a : α) :
    ∀ l, List.Chain' (fun x y => r x y = true) l →
      List.Chain' (fun x y => r x y = true) (insertSortedBy r a l) := by
  intro l
  induction l with
  | nil => intro _; simp [insertSortedBy]
  | cons b t ih =>
    intro hchain
    have hbt : List.Chain' (fun x y => r x y = true) t := hchain.tail
    unfold insertSortedBy
    by_cases h : r a b = true
    · rw [if_pos h]
      exact List.Chain'.cons h hchain
    · rw [if_neg h]
      have hba : r b a = true := (htot a b).resolve_left h
      cases t with
      | nil => simp [insertSortedBy, hba]
      | cons c t' =>
        have hbc : r b c = true := List.chain'_cons.mp hchain |>.1
        unfold insertSortedBy
        by_cases h2 : r a c = true
        · rw [if_pos h2]
          exact List.Chain'.cons hba (List.Chain'.cons h2 hbt)
        · rw [if_neg h2]
          have := ih hbt
          unfold insertSortedBy at this
          rw [if_neg h2] at this
          exact List.Chain'.cons hbc this

theorem chain'_sortBy {α : Type} (r : α → α → Bool)
    (htot : ∀ x y, r x y = true ∨ r y x = true) (l : List α) :
    List.Chain' (fun x y => r x y = true) (sortBy r l) := by
  induction l with
  | nil => simp [sortBy]
  | cons a t ih => exact chain'_insertSortedBy r htot a (sortBy r t) ih

theorem candLe_total (x y : CandEntry) : candLe x y = true ∨ candLe y x = true := by
  unfold candLe
  cases hx : x.score with
  | nan => left; rfl
  | num a =>
    cases hy : y.score with
    | nan => left; rfl
    | num b =>
      rcases le_total a b with h | h
      · left; exact decide_eq_true h
      · right; exact decide_eq_true h

/-- Claim C5 (code bug): in `frequencies(2, "A ")` the second column contains zero
alphabetic characters; the source divides the zero counts by the zero total, so the
column's score is NaN, silently propagated — not an explicit score-undefined marker
such as positive infinity. -/
theorem c5_nan_score :
    ((Vigenere.frequencies (mkVigenere ("A ".toList) []) 2 ("A ".toList)).getD 1
        defaultColumn).total = 0
  ∧ ((Vigenere.frequencies (mkVigenere ("A ".toList) []) 2 ("A ".toList)).getD 1
        defaultColumn).score = JsNum.nan := by
  constructor
  · decide
  · decide

/-- Counterexample to claim C3 as stated: with length 1 and options 3 the claim
predicts min(3, 26) = 3 retained candidates in the single column, but the column
keeps all 26 — the clamped `options` value is never used by the source. -/
theorem c3_counterexample :
    ¬ ((((mkVigenere ("A".toList) []).smashKey 1 3).1.candidateTable.getD 0 []).length
        = min 3 26) := by
  have h : (((mkVigenere ("A".toList) []).smashKey 1 3).1.candidateTable.getD 0 [])
      = sortBy candLe (rawColumn (mkVigenere ("A".toList) []) 1 0) := rfl
  rw [h, sortBy_length]
  have h2 : (rawColumn (mkVigenere ("A".toList) []) 1 0).length = 26 := by
    unfold rawColumn
    rw [List.length_map]
    rfl
  rw [h2]
  decide

/-- Claim C3 amended: for every key length L ≥ 1 and every options value, each of
the L columns of `smashKey`'s candidate table contains exactly 26 (letter, score)
entries — the options argument (default 3, capped at 26) is computed but never used
to truncate — and each column is sorted ascending by score in the JS comparator
order (NaN scores compare as ties). -/
theorem c3_amended (v : Vigenere) (L n : Nat) (hL : 1 ≤ L) :
    (Vigenere.smashKey v L n).1.candidateTable.length = L
  ∧ ∀ col ∈ (Vigenere.smashKey v L n).1.candidateTable,
      col.length = 26 ∧ List.Chain' (fun x y => candLe x y = true) col := by
  have hL0 : L ≠ 0 := by omega
  have hlen : (if L = 0 then 1 else L) = L := by rw [if_neg hL0]
  constructor
  · simp [Vigenere.smashKey, hlen]
  · intro col hcol
    simp only [Vigenere.smashKey, hlen, List.mem_map] at hcol
    obtain ⟨c, hc, rfl⟩ := hcol
    constructor
    · rw [sortBy_length]
      unfold rawColumn
      rw [List.length_map]
      rfl
    · generalize rawColumn v L c = raw
      exact chain'_sortBy candLe candLe_total raw

/-- Witness for the amended C3 at the concrete engine on text `"A"`, length 1,
options 3. -/
theorem c3_amended_witness :
    ((mkVigenere ("A".toList) []).smashKey 1 3).1.candidateTable.length = 1
  ∧ ∀ col ∈ ((mkVigenere ("A".toList) []).smashKey 1 3).1.candidateTable,
      col.length = 26 ∧ List.Chain' (fun x y => candLe x y = true) col :=
  c3_amended (mkVigenere ("A".toList) []) 1 3 (by decide)

theorem getD_replicate_zero (L c : Nat) : (List.replicate L (0 : Nat)).getD c 0 = 0 := by
  induction L generalizing c with
  | zero => cases c <;> rfl
  | succ m ih =>
    cases c with
    | zero => rfl
    | succ c' => simpa [List.replicate] using ih c'

theorem range_map_getD {β γ : Type} (l : List β) (d : β) (f : β → γ) :
    (List.range l.length).map (fun c => f (l.getD c d)) = l.map f := by
  induction l with
  | nil => rfl
  | cons a t ih =>
    rw [List.length_cons, List.range_succ_eq_map, List.map_cons, List.map_map]
    refine congrArg₂ List.cons rfl ?_
    have hcomp : ((fun c => f ((a :: t).getD c d)) ∘ Nat.succ) = fun c => f (t.getD c d) := by
      funext c
      rfl
    rw [hcomp, ih]

theorem assembleZero_general (tbl : List (List CandEntry)) (L : Nat) :
    (List.range tbl.length).map (fun c =>
        ((tbl.getD c []).getD ((List.replicate L 0).getD c 0) defaultCand).letter)
      = tbl.map (fun col => (col.headD defaultCand).letter) := by
  have h1 : (fun c =>
        ((tbl.getD c []).getD ((List.replicate L 0).getD c 0) defaultCand).letter)
      = fun c => ((tbl.getD c []).headD defaultCand).letter := by
    funext c
    rw [getD_replicate_zero]
    cases tbl.getD c [] <;> rfl
  rw [h1]
  exact range_map_getD tbl [] (fun col => (col.headD defaultCand).letter)

/-- Claim C8: for every smashKey result built with key length L ≥ 1, `assemble`
applied to the all-zero combination of length L reproduces `firstKey` exactly. -/
theorem c8_assemble_zero (v : Vigenere) (L n : Nat) (hL : 1 ≤ L) :
    assembleKey (Vigenere.smashKey v L n).1 (List.replicate L 0)
      = (Vigenere.smashKey v L n).1.firstKey :=
  assembleZero_general (Vigenere.smashKey v L n).1.candidateTable L

/-- Witness for C8 at the concrete engine on text `"AB"`, length 2, options 3. -/
theorem c8_assemble_zero_witness :
    assembleKey ((mkVigenere ("AB".toList) []).smashKey 2 3).1 (List.replicate 2 0)
      = ((mkVigenere ("AB".toList) []).smashKey 2 3).1.firstKey :=
  c8_assemble_zero (mkVigenere ("AB".toList) []) 2 3 (by decide)

theorem smashStep_eq (st : Vigenere) (l : Char) :
    smashStep st l = { st with plaintext := decryptStr st.cryptotext [l] } := by
  simp [smashStep, Vigenere.decrypt]

theorem foldl_smashStep (ls : List Char) (a : Char) (v : Vigenere) :
    List.foldl smashStep v (a :: ls)
      = { v with plaintext := decryptStr v.cryptotext [ls.getLastD a] } := by
  induction ls generalizing a v with
  | nil => simp [List.foldl, smashStep_eq, List.getLastD]
  | cons b t ih =>
    rw [List.foldl_cons, smashStep_eq, ih b, List.getLastD_cons]

/-- Counterexample to claim C9 as stated: `smashKey` mutates the stored plaintext —
on the engine built from text `"AB"` the plaintext differs after the call. -/
theorem c9_counterexample :
    ((mkVigenere ("AB".toList) []).smashKey 1 3).2.plaintext
      ≠ (mkVigenere ("AB".toList) []).plaintext := by
  decide

/-- Claim C9 amended: `smashKey` leaves the working text, stored ciphertext and key
unchanged, but its 26 internal `decrypt(letter)` calls overwrite the stored plaintext,
leaving it equal to the decryption of the working text under the last letter `Z`. -/
theorem c9_amended (v : Vigenere) (L n : Nat) :
    (Vigenere.smashKey v L n).2.plaintext = decryptStr v.cryptotext ['Z']
  ∧ (Vigenere.smashKey v L n).2.cryptotext = v.cryptotext
  ∧ (Vigenere.smashKey v L n).2.ciphertext = v.ciphertext
  ∧ (Vigenere.smashKey v L n).2.key = v.key := by
  have h2 : (Vigenere.smashKey v L n).2 = lettersAZ.foldl smashStep v := rfl
  have hAZ : lettersAZ = 'A' :: ("BCDEFGHIJKLMNOPQRSTUVWXYZ".toList) := by decide
  have hlast : ("BCDEFGHIJKLMNOPQRSTUVWXYZ".toList).getLastD 'A' = 'Z' := by decide
  rw [h2, hAZ, foldl_smashStep, hlast]
  exact ⟨rfl, rfl, rfl, rfl⟩

/-- Claim C10: the outputs of `encrypt` and `decrypt` depend only on the stored
working text and the key used — the stored plaintext/ciphertext fields never influence
them — and running `encrypt(K)` then `decrypt(K)` on one instance decrypts the
unchanged working text rather than the ciphertext just produced, so the sequence does
not round-trip (witnessed at working text `"AB"` with key `"B"`). -/
theorem c10_state_independence (v : Vigenere) (k p c : List Char) :
    ((Vigenere.encrypt { v with plaintext := p, ciphertext := c } k).1
        = (Vigenere.encrypt v k).1
      ∧ (Vigenere.decrypt { v with plaintext := p, ciphertext := c } k).1
        = (Vigenere.decrypt v k).1)
  ∧ (k ≠ [] →
      (Vigenere.decrypt ((Vigenere.encrypt v k).2) k).1 = decryptStr v.cryptotext k)
  ∧ (Vigenere.decrypt
        ((Vigenere.encrypt (mkVigenere ("AB".toList) []) ("B".toList)).2)
        ("B".toList)).1 ≠ upperStr ("AB".toList) := by
  refine ⟨⟨rfl, rfl⟩, ?_, ?_⟩
  · intro hk
    simp [Vigenere.encrypt, Vigenere.decrypt, hk]
  · decide

/-- Witness for C10: a concrete instance of the encrypt-then-decrypt equation, with
the non-empty-key hypothesis discharged at key `"LEMON"`. -/
theorem c10_state_independence_witness :
    (Vigenere.decrypt
        ((Vigenere.encrypt (mkVigenere ("ATTACK".toList) ("LEMON".toList))
            ("LEMON".toList)).2) ("LEMON".toList)).1
      = decryptStr (mkVigenere ("ATTACK".toList) ("LEMON".toList)).cryptotext
          ("LEMON".toList) :=
  (c10_state_independence (mkVigenere ("ATTACK".toList) ("LEMON".toList))
    ("LEMON".toList) [] []).2.1 (by decide)

theorem mem_factorListOf (n i : Nat) :
    i ∈ factorListOf n ↔ 2 ≤ i ∧ i ≤ Nat.sqrt n ∧ n % i = 0 := by
  unfold factorListOf
  rw [List.mem_filter, List.mem_range]
  simp only [Bool.and_eq_true, decide_eq_true_eq]
  constructor
  · rintro ⟨hlt, ⟨h2, hsq⟩, hdvd⟩
    exact ⟨h2, Nat.le_sqrt.mpr hsq, hdvd⟩
  · rintro ⟨h2, hsq, hdvd⟩
    have hsq' : i * i ≤ n := Nat.le_sqrt.mp hsq
    have hii : i ≤ i * i := Nat.le_mul_of_pos_left i (by omega)
    exact ⟨by omega, ⟨h2, hsq'⟩, hdvd⟩

theorem factorGap_inv (n : Nat) (ft : List FactorRec)
    (h : ∀ r ∈ ft, FactorInv r) :
    ∀ r ∈ factorGap n ft, FactorInv r := by
  intro r hr
  unfold factorGap at hr
  by_cases hex : ft.any (fun r => r.gap = n) = true
  · rw [if_pos hex] at hr
    obtain ⟨r₀, hr₀, hmap⟩ := List.mem_map.mp hr
    by_cases hg : r₀.gap = n
    · rw [if_pos hg] at hmap
      subst hmap
      have h₀ := h r₀ hr₀
      unfold FactorInv at h₀ ⊢
      simpa using h₀
    · rw [if_neg hg] at hmap
      subst hmap
      exact h r₀ hr₀
  · rw [if_neg hex] at hr
    rcases List.mem_append.mp hr with h1 | h1
    · exact h r h1
    · have hr' : r = { gap := n, frequency := 1, factorList := factorListOf n } := by
        simpa using h1
      subst hr'
      intro i
      simpa using mem_factorListOf n i

theorem chainLoop_inv (ct cand : List Char) (k startIndex : Nat) :
    ∀ (fuel searchIndex : Nat)
      (tables : List (List Char × List (Nat × Nat)) × List FactorRec),
      TableInv tables →
      TableInv (chainLoop ct cand k startIndex fuel searchIndex tables) := by
  intro fuel
  induction fuel with
  | zero =>
    intro si tables h
    exact h
  | succ f ih =>
    intro si tables h
    obtain ⟨st, ft⟩ := tables
    cases hidx : indexOfFrom ct cand si with
    | none =>
      simp only [chainLoop, hidx]
      exact h
    | some nextIndex =>
      simp only [chainLoop, hidx]
      exact ih (nextIndex + k) _ (factorGap_inv (nextIndex - startIndex) ft h)

theorem foldl_preserve {σ β : Type} (P : σ → Prop) (step : σ → β → σ)
    (hstep : ∀ s b, P s → P (step s b)) :
    ∀ (l : List β) (s : σ), P s → P (l.foldl step s) := by
  intro l
  induction l with
  | nil =>
    intro s hs
    exact hs
  | cons b t ih =>
    intro s hs
    rw [List.foldl_cons]
    exact ih (step s b) (hstep s b hs)

theorem recurrenceSearch_inv (ct : List Char) : TableInv (recurrenceSearch ct) := by
  have h0 : TableInv (([], []) :
      List (List Char × List (Nat × Nat)) × List FactorRec) := by
    intro r hr
    exact absurd hr (List.not_mem_nil r)
  exact foldl_preserve TableInv _
    (fun s k hs => foldl_preserve TableInv _
      (fun s2 sI hs2 => chainLoop_inv ct _ k sI _ _ s2 hs2) _ s hs)
    _ _ h0

/-- Claim C7: every record the search's `factorGap` calls leave in the factor table
satisfies the invariant — its factor list holds exactly the integers in
`[2, sqrt gap]` that evenly divide the gap; in particular neither 1, nor the gap
itself, nor any cofactor above `sqrt gap` is ever recorded. -/
theorem c7_factor_invariant (ct : List Char) (r : FactorRec)
    (hr : r ∈ (recurrenceSearch ct).2) :
    (∀ i : Nat, i ∈ r.factorList ↔ 2 ≤ i ∧ i ≤ Nat.sqrt r.gap ∧ r.gap % i = 0)
  ∧ 1 ∉ r.factorList ∧ r.gap ∉ r.factorList := by
  have hinv : FactorInv r := recurrenceSearch_inv ct r hr
  refine ⟨hinv, ?_, ?_⟩
  · intro h1
    have := (hinv 1).mp h1
    omega
  · intro hg
    obtain ⟨h2, hsq, -⟩ := (hinv r.gap).mp hg
    have hsq' : r.gap * r.gap ≤ r.gap := Nat.le_sqrt.mp hsq
    have hmul : 2 * r.gap ≤ r.gap * r.gap := Nat.mul_le_mul_right r.gap h2
    omega

/-- Witness for C7: on ciphertext `"ABCDAB"` the search records the gap 4 with
factor list [2]; the invariant instantiated at the divisor 2 and the exclusions of
1 and of the gap itself. -/
theorem c7_factor_invariant_witness :
    (2 ∈ (FactorRec.mk 4 1 [2]).factorList ↔
      2 ≤ 2 ∧ 2 ≤ Nat.sqrt (FactorRec.mk 4 1 [2]).gap
        ∧ (FactorRec.mk 4 1 [2]).gap % 2 = 0)
  ∧ 1 ∉ (FactorRec.mk 4 1 [2]).factorList
  ∧ (FactorRec.mk 4 1 [2]).gap ∉ (FactorRec.mk 4 1 [2]).factorList :=
  ⟨(c7_factor_invariant ("ABCDAB".toList) (FactorRec.mk 4 1 [2]) (by decide)).1 2,
   (c7_factor_invariant ("ABCDAB".toList) (FactorRec.mk 4 1 [2]) (by decide)).2.1,
   (c7_factor_invariant ("ABCDAB".toList) (FactorRec.mk 4 1 [2]) (by decide)).2.2⟩

/-- Claim C4 (code bug): on a ciphertext with no repeated substring of length ≥ 2
(here `"ABCD"`), `recurrenceSearch` records no gaps, `frequencyRanks` comes out
empty, and both source variants of `kasiskiExamination` read a property of
`undefined` and throw (modelled `none`) instead of returning an explicit
no-candidates / insufficient-data result. -/
theorem c4_crash_on_no_repeats :
    (recurrenceSearch ("ABCD".toList)).2 = []
  ∧ kasiskiExamination ("ABCD".toList) = none
  ∧ kasiskiExaminationNoSkip ("ABCD".toList) = none := by
  refine ⟨?_, ?_, ?_⟩ <;> decide

theorem rankLe_total (x y : RankEntry) : rankLe x y = true ∨ rankLe y x = true := by
  unfold rankLe
  rcases le_total x.frequency y.frequency with h | h
  · right
    exact decide_eq_true h
  · left
    exact decide_eq_true h

theorem find?_split {α : Type} (p : α → Bool) :
    ∀ l : List α, (∃ a ∈ l, p a = true) →
      ∃ l₁ a l₂, l = l₁ ++ a :: l₂ ∧ l.find? p = some a ∧ p a = true
        ∧ ∀ x ∈ l₁, p x = false := by
  intro l
  induction l with
  | nil =>
    rintro ⟨a, ha, -⟩
    exact absurd ha (List.not_mem_nil a)
  | cons b t ih =>
    intro hex
    by_cases hb : p b = true
    · refine ⟨[], b, t, rfl, ?_, hb, ?_⟩
      · simp [List.find?, hb]
      · intro x hx
        exact absurd hx (List.not_mem_nil x)
    · have hbf : p b = false := Bool.eq_false_iff.mpr hb
      have hex' : ∃ a ∈ t, p a = true := by
        obtain ⟨a, ha, hpa⟩ := hex
        rcases List.mem_cons.mp ha with h | h
        · rw [h] at hpa
          exact absurd hpa hb
        · exact ⟨a, h, hpa⟩
      obtain ⟨l₁, a, l₂, heq, hfind, hpa, hall⟩ := ih hex'
      refine ⟨b :: l₁, a, l₂, ?_, ?_, hpa, ?_⟩
      · rw [List.cons_append, heq]
      · simp only [List.find?, hbf]
        exact hfind
      · intro x hx
        rcases List.mem_cons.mp hx with h | h
        · rw [h]
          exact hbf
        · exact hall x h

/-- Counterexample to claim C2 as stated: on `"ABCDAB"` the search records the gap 4
with the non-empty factor list [2], so the claim's premise holds, yet every ranked
factor is below 4; the skip loop walks past the end of `frequencyRanks` and the
source throws (modelled `none`), so `firstKeyLength` equals no ranked factor at
all. -/
theorem c2_counterexample :
    (∃ r ∈ (recurrenceSearch ("ABCDAB".toList)).2, r.factorList ≠ [])
  ∧ (∀ e ∈ kasiskiRanks ("ABCDAB".toList), e.factor < 4)
  ∧ kasiskiExamination ("ABCDAB".toList) = none := by
  refine ⟨?_, ?_, ?_⟩ <;> decide

/-- Claim C2 amended: whenever the search records at least one gap with a non-empty
factor list AND at least one ranked factor is ≥ 4, `kasiskiExamination` returns, its
`frequencyRanks` is the aggregate factor list stably sorted descending by frequency
(adjacent entries non-increasing), and `firstKeyLength` is the factor of the
highest-ranked entry whose factor is at least 4, every higher-ranked entry having
factor < 4 (the skip).  Without a factor ≥ 4 the source throws instead (see the
counterexample). -/
theorem c2_amended (ct : List Char)
    (hgap : ∃ r ∈ (recurrenceSearch ct).2, r.factorList ≠ [])
    (hbig : ∃ e ∈ kasiskiRanks ct, 4 ≤ e.factor) :
    List.Chain' (fun x y => y.frequency ≤ x.frequency) (kasiskiRanks ct)
  ∧ ∃ l₁ e l₂,
      kasiskiRanks ct = l₁ ++ e :: l₂
      ∧ 4 ≤ e.factor
      ∧ (∀ x ∈ l₁, x.factor < 4)
      ∧ ∃ res, kasiskiExamination ct = some res
          ∧ res.firstKeyLength = e.factor
          ∧ res.frequencyRanks = kasiskiRanks ct := by
  constructor
  · have hchain := chain'_sortBy rankLe rankLe_total (kasiskiCandidateFreqs ct)
    refine List.Chain'.imp ?_ hchain
    intro x y hxy
    exact of_decide_eq_true hxy
  · have hex : ∃ e ∈ kasiskiRanks ct, decide (4 ≤ e.factor) = true := by
      obtain ⟨e, he, h4⟩ := hbig
      exact ⟨e, he, decide_eq_true h4⟩
    have hsplit :
        ∃ l₁ e l₂, kasiskiRanks ct = l₁ ++ e :: l₂
          ∧ (kasiskiRanks ct).find? (fun e => decide (4 ≤ e.factor)) = some e
          ∧ decide (4 ≤ e.factor) = true
          ∧ ∀ x ∈ l₁, decide (4 ≤ x.factor) = false :=
      find?_split (fun e => decide (4 ≤ e.factor)) (kasiskiRanks ct) hex
    obtain ⟨l₁, e, l₂, heq, hfind, hpe, hall⟩ := hsplit
    refine ⟨l₁, e, l₂, heq, of_decide_eq_true hpe, ?_, ?_⟩
    · intro x hx
      have := hall x hx
      have hnot : ¬ (4 ≤ x.factor) := of_decide_eq_false this
      omega
    · refine ⟨{ substringTable := (recurrenceSearch ct).1
                factorTable := (recurrenceSearch ct).2
                candidateFreqs := kasiskiCandidateFreqs ct
                frequencyRanks := kasiskiRanks ct
                firstKeyLength := e.factor }, ?_, rfl, rfl⟩
      unfold kasiskiExamination
      rw [hfind]

/-- Witness for the amended C2: the 18-character ciphertext
`"ABCDEFGHIJKLMNOPAB"` has `"AB"` repeating at distance 16, whose recorded factors
are 2 and 4, so a ranked factor ≥ 4 exists and the theorem applies. -/
theorem c2_amended_witness :
    List.Chain' (fun x y => y.frequency ≤ x.frequency)
      (kasiskiRanks ("ABCDEFGHIJKLMNOPAB".toList))
  ∧ ∃ l₁ e l₂,
      kasiskiRanks ("ABCDEFGHIJKLMNOPAB".toList) = l₁ ++ e :: l₂
      ∧ 4 ≤ e.factor
      ∧ (∀ x ∈ l₁, x.factor < 4)
      ∧ ∃ res, kasiskiExamination ("ABCDEFGHIJKLMNOPAB".toList) = some res
          ∧ res.firstKeyLength = e.factor
          ∧ res.frequencyRanks = kasiskiRanks ("ABCDEFGHIJKLMNOPAB".toList) :=
  c2_amended ("ABCDEFGHIJKLMNOPAB".toList) (by decide) (by decide)
